import Mathlib

set_option linter.unusedVariables false

/-!
Shallow embedding of `db/changes_writer.go` (sync_gateway changes writer):
the fan-out coordinator `addToChangeLogs`, the channel-log writer actor
(`readChange_`, `readChanges_`, `massageChanges`), the commit path
`addToChangeLog_` with its atomic-update callback, and the read path
(`getChangeLog`, `decodeChannelLog`).

Byte strings are modelled as `List Nat`.  External collaborators that are
code of this repository but not present under `src/` (the `channels`
package: `LogEntry` flags bit, `ChangeLog` with `Add`/`FilterAfter`,
`Encode`/`DecodeChangeLog`/`TruncateEncodedChangeLog`; the configuration
constants `MaxChangeLogLength`, `AlwaysCompactChangeLog`,
`EnableStarChannelLog`) are modelled from the spec and marked as such.
-/

namespace ChangesWriter

/-- Modelled from the spec: a change record of the `channels` package —
`Sequence` (unsigned), `DocID`, `RevID` and a `Flags` bitmask that includes
a `Removed` bit.  Byte strings are lists of naturals. -/
structure LogEntry where
  sequence : Nat
  docID : List Nat
  revID : List Nat
  flags : Nat
deriving DecidableEq, Inhabited

/-- Modelled from the spec: the `Removed` bit of the `Flags` bitmask
(`channels.Removed`) is taken to be bit 0.  `setRemoved` is Go
`flags |= channels.Removed`. -/
def setRemoved (f : Nat) : Nat := 2 * (f / 2) + 1

/-- Modelled from the spec: Go `flags &^ channels.Removed` — clear the
`Removed` bit (bit 0), leaving the other bits untouched. -/
def clearRemoved (f : Nat) : Nat := 2 * (f / 2)

/-- Whether the `Removed` bit (bit 0 in this model) is set. -/
def isRemoved (f : Nat) : Bool := f % 2 == 1

/-- Modelled from the spec: the in-memory decoded channel log
(`channels.ChangeLog`), a sequence of entries with an `Add` append
operation. -/
structure ChangeLog where
  entries : List LogEntry
deriving DecidableEq, Inhabited

/-- Modelled from the spec: `ChangeLog.Add` appends an entry. -/
def ChangeLog.Add (log : ChangeLog) (e : LogEntry) : ChangeLog :=
  ⟨log.entries ++ [e]⟩

/-- Modelled from the spec: deterministic streaming byte encoding of one
entry together with its parent revision id.  Concatenation of encodings is
a valid encoding of the concatenated logs (the spec's streaming-append
requirement); each field is length-prefixed so decoding is unambiguous. -/
def encodeEntry (e : LogEntry) (parentRevID : List Nat) : List Nat :=
  [e.sequence, e.flags, e.docID.length] ++ e.docID ++
    [e.revID.length] ++ e.revID ++ [parentRevID.length] ++ parentRevID

/-- Modelled from the spec: `ChangeLog.Encode` writes each entry in order
(the in-memory log does not carry parent revision ids, so they encode
empty). -/
def ChangeLog.Encode (log : ChangeLog) : List Nat :=
  (log.entries.map (fun e => encodeEntry e [])).flatten

/-- Modelled from the spec: greedy decoder for the entry stream; parsing
stops at the first malformed tail (corrupt bytes), returning the entries
(with their parent revision ids) read so far.  `fuel` bounds recursion by
the byte count. -/
def decodeEntriesAux : Nat → List Nat → List (LogEntry × List Nat)
  | 0, _ => []
  | fuel + 1, bytes =>
    match bytes with
    | seq :: flags :: dlen :: rest =>
      if dlen ≤ rest.length then
        let docID := rest.take dlen
        match rest.drop dlen with
        | rlen :: r2 =>
          if rlen ≤ r2.length then
            let revID := r2.take rlen
            match r2.drop rlen with
            | plen :: r4 =>
              if plen ≤ r4.length then
                (⟨seq, docID, revID, flags⟩, r4.take plen) ::
                  decodeEntriesAux fuel (r4.drop plen)
              else []
            | [] => []
          else []
        | [] => []
      else []
    | _ => []

/-- Modelled from the spec: `channels.DecodeChangeLog` — decode raw bytes
into an in-memory log.  It is total (returns the entries parsed before any
corruption) and has no error channel, matching its use in
`decodeChannelLog`. -/
def DecodeChangeLog (raw : List Nat) : ChangeLog :=
  ⟨(decodeEntriesAux (raw.length + 1) raw).map Prod.fst⟩

/-- Modelled from the spec: `channels.TruncateEncodedChangeLog` — drop the
oldest entries of an encoded log so that at most `maxLength` remain,
re-serialize the remainder and report how many were removed.  (The spec
allows the real decoder to remove fewer than requested depending on encoded
boundaries; this model removes exactly down to the target.  `minLength` is
accepted for signature fidelity.) -/
def TruncateEncodedChangeLog (raw : List Nat) (maxLength minLength : Int) :
    Nat × List Nat :=
  let pairs := decodeEntriesAux (raw.length + 1) raw
  let removed := pairs.length - maxLength.toNat
  (removed, ((pairs.drop removed).map (fun pr => encodeEntry pr.1 pr.2)).flatten)

/-- Store-level errors of the external bucket collaborator. -/
inductive StoreErr where
  | docNotFound
  | other (code : Nat)
deriving DecidableEq

/-- Modelled from the spec: `base.IsDocNotFoundError`. -/
def IsDocNotFoundError : StoreErr → Bool
  | .docNotFound => true
  | .other _ => false

/-- From source `channelLogDocID`: key = fixed prefix + version tag "log2"
+ channel name (`kChannelLogKeyPref` constants inlined). -/
def kChannelLogDocType : String := "log2"

/-- From source: `channelLogDocID(channelName)`. -/
def channelLogDocID (channelName : String) : String :=
  "_sync:" ++ kChannelLogDocType ++ ":" ++ channelName

/-- From source `encodeChannelLog`: nil log encodes to nil, otherwise the
log's `Encode` output. -/
def encodeChannelLog (log : Option ChangeLog) : List Nat :=
  match log with
  | none => []
  | some l => l.Encode

/-- From source `decodeChannelLog`: a nil/empty raw value yields a nil log
and nil error; otherwise the decoded log — and, in both cases, a nil
error (the error component is never populated). -/
def decodeChannelLog (raw : List Nat) : Option ChangeLog × Option StoreErr :=
  if raw.isEmpty then (none, none) else (some (DecodeChangeLog raw), none)

/-- Modelled from the spec: `ChangeLog.FilterAfter` keeps only the entries
with `Sequence > afterSeq`. -/
def ChangeLog.FilterAfter (log : ChangeLog) (afterSeq : Nat) : ChangeLog :=
  ⟨log.entries.filter (fun e => afterSeq < e.sequence)⟩

/-- From source `getChangeLog`: the bucket fetch result is passed in as an
`Except` (success carries the raw bytes).  On success the raw value is
decoded and filtered; a doc-not-found fetch error becomes a nil log with
nil error; any other fetch error is returned with a nil log. -/
def getChangeLog (fetch : Except StoreErr (List Nat)) (afterSeq : Nat) :
    Option ChangeLog × Option StoreErr :=
  match fetch with
  | .ok raw =>
    let decoded := decodeChannelLog raw
    match decoded.2 with
    | none => (decoded.1.map (fun l => l.FilterAfter afterSeq), none)
    | some e => (decoded.1, some e)
  | .error e =>
    if IsDocNotFoundError e then (none, none) else (none, some e)

/-- From source: the `changeEntry` queue item — a pointer to a log entry
plus its parent revision id (append-type), or a replacement log
(seed-type).  Pointers are modelled as `Option`. -/
structure ChangeEntry where
  logEntry : Option LogEntry
  parentRevID : List Nat
  replacementLog : Option ChangeLog
deriving DecidableEq, Inhabited

/-- From source `addChange`: the queue item enqueued for an append — the
entry (copied by value) with its parent revision id. -/
def mkAddChange (entry : LogEntry) (parentRevID : List Nat) : ChangeEntry :=
  ⟨some entry, parentRevID, none⟩

/-- From source `addChannelLog`: the queue item enqueued for a seed — only
the replacement log is populated. -/
def mkAddChannelLog (log : ChangeLog) : ChangeEntry :=
  ⟨none, [], some log⟩

/-- From source: `kChannelLogWriterQueueLength`. -/
def kChannelLogWriterQueueLength : Nat := 1000

/-- From source `readChange_`: pop items off the mailbox; a seed-type item
(non-nil `replacementLog`) is handled inline (collected into the returned
seed list, standing for the `addChangeLog_` add-if-absent store write) and
the loop continues; the first append-type item is returned together with
the rest of the queue.  An exhausted queue models a closed (or forever
blocking) mailbox and yields no entry. -/
def readChange : List ChangeEntry →
    Option ChangeEntry × List ChangeLog × List ChangeEntry
  | [] => (none, [], [])
  | e :: rest =>
    match e.replacementLog with
    | some log =>
      let r := readChange rest
      (r.1, log :: r.2.1, r.2.2)
    | none => (some e, [], rest)

/-- From source `readChanges_` inner loop: keep collecting immediately
available items while the batch is below the queue-capacity bound; seed
items are handled inline and never added to the batch. -/
def readChangesLoop : List ChangeEntry → List ChangeEntry → List ChangeLog →
    List ChangeEntry × List ChangeLog × List ChangeEntry
  | [], acc, seeds => (acc, seeds, [])
  | e :: rest, acc, seeds =>
    if acc.length < kChannelLogWriterQueueLength then
      match e.replacementLog with
      | some log => readChangesLoop rest acc (seeds ++ [log])
      | none => readChangesLoop rest (acc ++ [e]) seeds
    else (acc, seeds, e :: rest)

/-- From source `readChanges_`: blocking first read, then the non-blocking
drain loop.  Returns the batch (`none` when the mailbox closed with nothing
left), the seed logs handled inline, and the unread remainder of the
queue snapshot. -/
def readChanges (queue : List ChangeEntry) :
    Option (List ChangeEntry) × List ChangeLog × List ChangeEntry :=
  match readChange queue with
  | (none, seeds, rest) => (none, seeds, rest)
  | (some e, seeds0, rest) =>
    let r := readChangesLoop rest [e] []
    (some r.1, seeds0 ++ r.2.1, r.2.2)

/-- From source `changeEntryList.Less`: the sort key is
`logEntry.Sequence` (the code dereferences the pointer without a nil
check; the model reads through a default for the impossible nil case). -/
def changeEntrySeq (e : ChangeEntry) : Nat :=
  (e.logEntry.getD default).sequence

/-- Modelled from the Go standard library contract of `sort.Sort` as
invoked by `massageChanges`: the output is some permutation of the input
that is pairwise non-decreasing in the `changeEntryList.Less` key.
`sort.Sort` is documented as not guaranteed to be stable, so any such
permutation is an admissible behaviour. -/
def IsSortSortResult (input output : List ChangeEntry) : Prop :=
  output.Perm input ∧
    output.Pairwise (fun a b => changeEntrySeq a ≤ changeEntrySeq b)

/-- From source: a removal marker of the `ChannelMap` (`channels.Removal`),
carrying the sequence at which the document left the channel. -/
structure Removal where
  seq : Nat
deriving DecidableEq

/-- From source `addToChangeLogs` loop body: iterate the channel map (one
iteration order of the Go map), skipping stale removals, setting or
clearing the `Removed` flag on the single mutable `entry` local, and
emitting the per-channel copies handed to `addToChangeLog`.  Returns the
emitted copies and the final state of the mutated `entry`. -/
def addToChangeLogsLoop : List (String × Option Removal) → LogEntry →
    List (String × LogEntry) × LogEntry
  | [], entry => ([], entry)
  | (channel, removal) :: rest, entry =>
    match removal with
    | some r =>
      if r.seq ≠ entry.sequence then
        addToChangeLogsLoop rest entry
      else
        let entry' := { entry with flags := setRemoved entry.flags }
        let out := addToChangeLogsLoop rest entry'
        ((channel, entry') :: out.1, out.2)
    | none =>
      let entry' := { entry with flags := clearRemoved entry.flags }
      let out := addToChangeLogsLoop rest entry'
      ((channel, entry') :: out.1, out.2)

/-- From source `addToChangeLogs`: after the channel-map loop, when the
universal channel is enabled (`EnableStarChannelLog`, modelled as the
`enableStar` parameter), a copy with the `Removed` flag cleared is also
forwarded to channel `"*"`. -/
def addToChangeLogs (channelMap : List (String × Option Removal))
    (entry : LogEntry) (enableStar : Bool) : List (String × LogEntry) :=
  let r := addToChangeLogsLoop channelMap entry
  if enableStar then
    r.1 ++ [("*", { r.2 with flags := clearRemoved r.2.flags })]
  else r.1

/-- From source `addToChangeLog_` line 244: the full-compaction decision —
`AlwaysCompactChangeLog || (len(currentValue) > 20000 &&
rand.Intn(100) < len(currentValue)/5000)`.  The random draw is an explicit
argument. -/
def fullUpdateDecision (alwaysCompact : Bool) (currentLen randDraw : Nat) :
    Bool :=
  alwaysCompact ||
    (decide (currentLen > 20000) && decide (randDraw < currentLen / 5000))

/-- The variables of `addToChangeLog_` captured (and mutated) by the
update callback closure: the `entries` slice and the
`fullUpdate`/`removedCount`/`fullUpdateAttempts` locals. -/
structure CallbackClosure where
  entries : List ChangeEntry
  fullUpdate : Bool
  removedCount : Nat
  fullUpdateAttempts : Nat
deriving DecidableEq, Inhabited

/-- One invocation's outcome: the new byte value and the error handed back
to `WriteUpdate` (the write options are always `walrus.Raw` and are
omitted), plus the closure state after the invocation. -/
structure CallbackOutput where
  newValue : List Nat
  err : Option StoreErr
  closure : CallbackClosure
deriving DecidableEq

/-- From source lines 273-276: encode each batch entry with its parent
revision id and concatenate (`entry.logEntry.Encode(w, entry.parentRevID)`
over a fresh buffer). -/
def encodeEntriesWithParents (entries : List ChangeEntry) : List Nat :=
  (entries.map (fun e => encodeEntry (e.logEntry.getD default) e.parentRevID)).flatten

/-- From source lines 239-279: the update callback of `addToChangeLog_`.
`maxChangeLogLength` and `alwaysCompact` model the configuration constants
`MaxChangeLogLength` / `AlwaysCompactChangeLog` (not under `src/`);
`randDraw` is the fresh `rand.Intn(100)` draw of this invocation; `cl` is
the captured closure state.  Case A (empty log or overflow) replaces the
log with the (possibly trimmed) batch; otherwise a positive-removal full
update prepends the truncated log; otherwise the encoded batch is appended
to `currentValue` unchanged.  Every path returns a nil error. -/
def addToChangeLogCallback (maxChangeLogLength : Int) (alwaysCompact : Bool)
    (randDraw : Nat) (cl : CallbackClosure) (currentValue : List Nat) :
    CallbackOutput :=
  let fullUpdate := fullUpdateDecision alwaysCompact currentValue.length randDraw
  let entries := cl.entries
  let numToKeep : Int := maxChangeLogLength - entries.length
  if currentValue.length = 0 ∨ numToKeep ≤ 0 then
    let entries' := if numToKeep < 0 then entries.drop (-numToKeep).toNat else entries
    let channelLog :=
      entries'.foldl (fun log e => log.Add (e.logEntry.getD default)) ⟨[]⟩
    { newValue := encodeChannelLog (some channelLog)
      err := none
      closure := { cl with entries := entries', fullUpdate := fullUpdate,
                           removedCount := 0 } }
  else if fullUpdate then
    let attempts := cl.fullUpdateAttempts + 1
    let trunc := TruncateEncodedChangeLog currentValue numToKeep (numToKeep.tdiv 2)
    if trunc.1 > 0 then
      { newValue := trunc.2 ++ encodeEntriesWithParents entries
        err := none
        closure := { cl with fullUpdate := fullUpdate, removedCount := trunc.1,
                             fullUpdateAttempts := attempts } }
    else
      { newValue := currentValue ++ encodeEntriesWithParents entries
        err := none
        closure := { cl with fullUpdate := fullUpdate, removedCount := trunc.1,
                             fullUpdateAttempts := attempts } }
  else
    { newValue := currentValue ++ encodeEntriesWithParents entries
      err := none
      closure := { cl with fullUpdate := fullUpdate, removedCount := 0 } }

/-- Where an error surfaced from the commit path originates: returned by
the update callback itself, or reported by the store's atomic-update
primitive. -/
inductive CommitError where
  | fromCallback (e : StoreErr)
  | fromStore (e : StoreErr)
deriving DecidableEq

/-- The callback errors produced along one optimistic-concurrency retry
trace: each retry supplies a fresh random draw and the then-current stored
value, and the closure state mutated by one invocation is visible to the
next. -/
def runCallbackTrace (maxChangeLogLength : Int) (alwaysCompact : Bool) :
    List (Nat × List Nat) → CallbackClosure →
    List (Option StoreErr) × CallbackClosure
  | [], cl => ([], cl)
  | (r, cur) :: rest, cl =>
    let out := addToChangeLogCallback maxChangeLogLength alwaysCompact r cl cur
    let t := runCallbackTrace maxChangeLogLength alwaysCompact rest out.closure
    (out.err :: t.1, t.2)

/-- Modelled from the spec: the error reported by the store's
`WriteUpdate` primitive — an error returned by any callback invocation
aborts with that error; otherwise the outcome is whatever the store
itself reports. -/
def writeUpdateError (callbackErrs : List (Option StoreErr))
    (storeOutcome : Option StoreErr) : Option CommitError :=
  match callbackErrs.filterMap id with
  | e :: _ => some (.fromCallback e)
  | [] => storeOutcome.map .fromStore

/-- From source `addToChangeLog_`: the error returned by the commit path
is the `WriteUpdate` outcome over the retry trace of callback
invocations. -/
def addToChangeLog_commitError (maxChangeLogLength : Int)
    (alwaysCompact : Bool) (trace : List (Nat × List Nat))
    (cl : CallbackClosure) (storeOutcome : Option StoreErr) :
    Option CommitError :=
  writeUpdateError (runCallbackTrace maxChangeLogLength alwaysCompact trace cl).1
    storeOutcome

/-! Helper lemmas (shared). -/

theorem foldl_Add_entries (l : List ChangeEntry) (acc : ChangeLog) :
    (l.foldl (fun log e => log.Add (e.logEntry.getD default)) acc).entries =
      acc.entries ++ l.map (fun e => e.logEntry.getD default) := by
  induction l generalizing acc with
  | nil => simp
  | cons x xs ih =>
    simp only [List.foldl_cons, List.map_cons]
    rw [ih]
    simp [ChangeLog.Add]

theorem fullUpdateDecision_of_small (L r : Nat) (h : L ≤ 20000) :
    fullUpdateDecision false L r = false := by
  simp only [fullUpdateDecision, Bool.false_or, Bool.and_eq_false_iff,
    decide_eq_false_iff_not, not_lt]
  left
  exact h

theorem callback_err_none (maxLen : Int) (always : Bool) (r : Nat)
    (cl : CallbackClosure) (current : List Nat) :
    (addToChangeLogCallback maxLen always r cl current).err = none := by
  simp only [addToChangeLogCallback]
  split
  · rfl
  · split
    · split <;> rfl
    · rfl

theorem runCallbackTrace_errs_none (maxLen : Int) (always : Bool)
    (trace : List (Nat × List Nat)) (cl : CallbackClosure) :
    ∀ e ∈ (runCallbackTrace maxLen always trace cl).1, e = none := by
  induction trace generalizing cl with
  | nil => intro e he; simp [runCallbackTrace] at he
  | cons p rest ih =>
    intro e he
    simp only [runCallbackTrace, List.mem_cons] at he
    rcases he with h | h
    · subst h
      exact callback_err_none maxLen always p.1 cl p.2
    · exact ih _ e h

/-- C3: the full-compaction decision computed inside the update callback
equals `AlwaysCompactChangeLog OR (len(currentValue) > 20000 AND
randDraw < len(currentValue)/5000)` with exact integer division, and for
`len(currentValue) ≤ 20000` with `AlwaysCompactChangeLog = false` the
decision is `false` for every draw. -/
theorem fullUpdateDecision_spec (maxLen : Int) (always : Bool) (r : Nat)
    (cl : CallbackClosure) (current : List Nat) :
    ((addToChangeLogCallback maxLen always r cl current).closure.fullUpdate =
        (always || (decide (current.length > 20000) &&
          decide (r < current.length / 5000))))
    ∧ (current.length ≤ 20000 →
        (addToChangeLogCallback maxLen false r cl current).closure.fullUpdate =
          false) := by
  constructor
  · show _ = fullUpdateDecision always current.length r
    simp only [addToChangeLogCallback]
    split
    · rfl
    · split
      · split <;> rfl
      · rfl
  · intro h
    have hd : fullUpdateDecision false current.length r = false :=
      fullUpdateDecision_of_small _ _ h
    simp only [addToChangeLogCallback]
    split
    · exact hd
    · split
      · split <;> exact hd
      · exact hd

/-- Witness for C3 at a concrete input. -/
theorem fullUpdateDecision_spec_witness :
    ((addToChangeLogCallback 50 false 3 ⟨[], false, 0, 0⟩ [1, 2, 3]).closure.fullUpdate =
        (false || (decide ((3 : Nat) > 20000) && decide (3 < 3 / 5000))))
    ∧ (addToChangeLogCallback 50 false 3 ⟨[], false, 0, 0⟩ [1, 2, 3]).closure.fullUpdate =
        false := by
  have h := fullUpdateDecision_spec 50 false 3 ⟨[], false, 0, 0⟩ [1, 2, 3]
  exact ⟨h.1, h.2 (by decide)⟩

/-- C10: every invocation of the update callback returns a nil error, so
the error surfaced by the commit path is exactly the one reported by the
store's atomic-update primitive over the whole retry trace — never one of
the callback's own. -/
theorem callback_error_spec (maxLen : Int) (always : Bool) (r : Nat)
    (cl : CallbackClosure) (current : List Nat)
    (trace : List (Nat × List Nat)) (storeOutcome : Option StoreErr) :
    ((addToChangeLogCallback maxLen always r cl current).err = none)
    ∧ (addToChangeLog_commitError maxLen always trace cl storeOutcome =
        storeOutcome.map CommitError.fromStore) := by
  constructor
  · exact callback_err_none maxLen always r cl current
  · unfold addToChangeLog_commitError writeUpdateError
    have hnone : ((runCallbackTrace maxLen always trace cl).1.filterMap id) = [] := by
      rw [List.filterMap_eq_nil_iff]
      intro e he
      rw [runCallbackTrace_errs_none maxLen always trace cl e he]
      rfl
    rw [hnone]

/-- C7 counterexample: the single byte `[5]` is corrupt (it decodes to no
entries although non-empty), yet the read path returns a nil error — the
decode path of `getChangeLog` never produces an error, contradicting the
claim that decode failures are propagated as errors. -/
theorem decode_failure_counterexample :
    DecodeChangeLog [5] = ⟨[]⟩
    ∧ (getChangeLog (Except.ok [5]) 0).2 = none := by
  constructor
  · rfl
  · rfl

/-- C7 amended: decode failures are never surfaced as errors —
`decodeChannelLog` returns a nil error for every raw value, so whenever
the raw fetch succeeded, `getChangeLog` returns a nil error regardless of
the stored bytes. -/
theorem getChangeLog_decode_never_errors (raw : List Nat) (afterSeq : Nat) :
    (decodeChannelLog raw).2 = none
    ∧ (getChangeLog (Except.ok raw) afterSeq).2 = none := by
  by_cases h : raw.isEmpty <;> simp [getChangeLog, decodeChannelLog, h]

/-- C6: `getChangeLog` decodes the fetched raw document and filters to the
entries with `Sequence > afterSeq`; a doc-not-found fetch error yields a
nil log and nil error; any other fetch error is returned with a nil
log. -/
theorem getChangeLog_spec (raw : List Nat) (afterSeq : Nat) (e : StoreErr) :
    ((getChangeLog (Except.ok raw) afterSeq).1 =
        (decodeChannelLog raw).1.map (fun l => l.FilterAfter afterSeq))
    ∧ (∀ log, (getChangeLog (Except.ok raw) afterSeq).1 = some log →
        ∀ en ∈ log.entries, afterSeq < en.sequence)
    ∧ (getChangeLog (Except.error StoreErr.docNotFound) afterSeq = (none, none))
    ∧ (IsDocNotFoundError e = false →
        getChangeLog (Except.error e) afterSeq = (none, some e)) := by
  refine ⟨?_, ?_, rfl, ?_⟩
  · by_cases hraw : raw.isEmpty <;> simp [getChangeLog, decodeChannelLog, hraw]
  · intro log hlog en hen
    by_cases hraw : raw.isEmpty
    · simp [getChangeLog, decodeChannelLog, hraw] at hlog
    · simp only [getChangeLog, decodeChannelLog, hraw, Bool.false_eq_true,
        if_false, Option.map_some'] at hlog
      rw [← Option.some.inj hlog] at hen
      unfold ChangeLog.FilterAfter at hen
      simp only [List.mem_filter, decide_eq_true_eq] at hen
      exact hen.2
  · intro hnf
    simp [getChangeLog, hnf]

/-- Witness for C6 at concrete inputs. -/
theorem getChangeLog_spec_witness :
    ((getChangeLog (Except.ok [2, 0, 0, 0, 0]) 1).1 =
        (decodeChannelLog [2, 0, 0, 0, 0]).1.map (fun l => l.FilterAfter 1))
    ∧ (∀ en ∈ (ChangeLog.mk [⟨2, [], [], 0⟩]).entries, 1 < en.sequence)
    ∧ (getChangeLog (Except.error StoreErr.docNotFound) 1 = (none, none))
    ∧ (getChangeLog (Except.error (StoreErr.other 3)) 1 =
        (none, some (StoreErr.other 3))) := by
  have h := getChangeLog_spec [2, 0, 0, 0, 0] 1 (StoreErr.other 3)
  refine ⟨h.1, ?_, h.2.2.1, h.2.2.2 (by decide)⟩
  exact h.2.1 ⟨[⟨2, [], [], 0⟩]⟩ (by decide)

theorem foldl_Add_eq (l : List ChangeEntry) :
    l.foldl (fun log e => log.Add (e.logEntry.getD default)) (⟨[]⟩ : ChangeLog) =
      (⟨l.map (fun e => e.logEntry.getD default)⟩ : ChangeLog) := by
  have h := foldl_Add_entries l (⟨[]⟩ : ChangeLog)
  simp only [List.nil_append] at h
  calc l.foldl (fun log e => log.Add (e.logEntry.getD default)) (⟨[]⟩ : ChangeLog)
      = (⟨(l.foldl (fun log e => log.Add (e.logEntry.getD default))
          (⟨[]⟩ : ChangeLog)).entries⟩ : ChangeLog) := rfl
    _ = (⟨l.map (fun e => e.logEntry.getD default)⟩ : ChangeLog) := by rw [h]

/-- C1: Case A of the update callback — when the stored bytes are empty or
`numToKeep = MaxChangeLogLength - len(batch) ≤ 0`, the result discards the
current bytes and encodes only the batch, trimmed of its oldest
`-numToKeep` entries when `numToKeep < 0`; with `MaxChangeLogLength = 5`
and a batch of 7 the result encodes exactly the last 5 entries of the
batch, which under the sequence-sorted hypothesis are the 5 most recent. -/
theorem addToChangeLog_caseA_spec (maxLen : Int) (always : Bool) (r : Nat)
    (cl : CallbackClosure) (current : List Nat)
    (hne : cl.entries ≠ [])
    (hA : current.length = 0 ∨ maxLen - (cl.entries.length : Int) ≤ 0) :
    ((addToChangeLogCallback maxLen always r cl current).newValue =
        encodeChannelLog (some ⟨(if maxLen - (cl.entries.length : Int) < 0
            then cl.entries.drop (-(maxLen - (cl.entries.length : Int))).toNat
            else cl.entries).map (fun e => e.logEntry.getD default)⟩))
    ∧ (maxLen = 5 → cl.entries.length = 7 →
        ((addToChangeLogCallback maxLen always r cl current).newValue =
            encodeChannelLog (some ⟨(cl.entries.drop 2).map
              (fun e => e.logEntry.getD default)⟩))
        ∧ (cl.entries.drop 2).length = 5
        ∧ (cl.entries.Pairwise (fun a b => changeEntrySeq a ≤ changeEntrySeq b) →
            ∀ a ∈ cl.entries.take 2, ∀ b ∈ cl.entries.drop 2,
              changeEntrySeq a ≤ changeEntrySeq b)) := by
  have main : (addToChangeLogCallback maxLen always r cl current).newValue =
      encodeChannelLog (some ⟨(if maxLen - (cl.entries.length : Int) < 0
          then cl.entries.drop (-(maxLen - (cl.entries.length : Int))).toNat
          else cl.entries).map (fun e => e.logEntry.getD default)⟩) := by
    simp only [addToChangeLogCallback]
    rw [if_pos hA, foldl_Add_eq]
  refine ⟨main, ?_⟩
  intro h5 h7
  subst h5
  rw [h7] at main
  rw [if_pos (by decide : (5 : Int) - ((7 : Nat) : Int) < 0)] at main
  rw [(by decide : (-((5 : Int) - ((7 : Nat) : Int))).toNat = 2)] at main
  refine ⟨main, ?_, ?_⟩
  · rw [List.length_drop, h7]
  · intro hp a ha b hb
    rw [← List.take_append_drop 2 cl.entries] at hp
    exact (List.pairwise_append.mp hp).2.2 a ha b hb

/-- Batch of 7 sequence-sorted entries used by the C1 witness. -/
def batch7 : List ChangeEntry :=
  [mkAddChange ⟨1, [], [], 0⟩ [], mkAddChange ⟨2, [], [], 0⟩ [],
   mkAddChange ⟨3, [], [], 0⟩ [], mkAddChange ⟨4, [], [], 0⟩ [],
   mkAddChange ⟨5, [], [], 0⟩ [], mkAddChange ⟨6, [], [], 0⟩ [],
   mkAddChange ⟨7, [], [], 0⟩ []]

/-- Witness for C1 at the claim's own instance (`MaxChangeLogLength = 5`,
batch of 7, empty stored log). -/
theorem addToChangeLog_caseA_spec_witness :
    ((addToChangeLogCallback 5 false 0 ⟨batch7, false, 0, 0⟩ []).newValue =
        encodeChannelLog (some ⟨(batch7.drop 2).map
          (fun e => e.logEntry.getD default)⟩))
    ∧ (batch7.drop 2).length = 5
    ∧ (∀ a ∈ batch7.take 2, ∀ b ∈ batch7.drop 2,
        changeEntrySeq a ≤ changeEntrySeq b) := by
  have h := addToChangeLog_caseA_spec 5 false 0 ⟨batch7, false, 0, 0⟩ []
    (by decide) (Or.inl rfl)
  have h2 := h.2 rfl (by decide)
  exact ⟨h2.1, h2.2.1, h2.2.2 (by decide)⟩

/-- C4: when Case A does not apply — with a positive full-compaction
decision the stored log is truncated targeting `numToKeep` entries with
floor `numToKeep/2`; a positive `removedCount` yields the truncated bytes
followed by the encoded batch, and otherwise (zero removals, or decision
false) the result is exactly `currentValue` with the encoded batch
appended after it, which never shrinks the stored log. -/
theorem addToChangeLog_caseBC_spec (maxLen : Int) (always : Bool) (r : Nat)
    (cl : CallbackClosure) (current : List Nat)
    (hne : ¬(current.length = 0 ∨ maxLen - (cl.entries.length : Int) ≤ 0)) :
    (fullUpdateDecision always current.length r = true →
        0 < (TruncateEncodedChangeLog current (maxLen - (cl.entries.length : Int))
          ((maxLen - (cl.entries.length : Int)).tdiv 2)).1 →
        ((addToChangeLogCallback maxLen always r cl current).newValue =
            (TruncateEncodedChangeLog current (maxLen - (cl.entries.length : Int))
              ((maxLen - (cl.entries.length : Int)).tdiv 2)).2 ++
              encodeEntriesWithParents cl.entries
        ∧ (addToChangeLogCallback maxLen always r cl current).closure.removedCount =
            (TruncateEncodedChangeLog current (maxLen - (cl.entries.length : Int))
              ((maxLen - (cl.entries.length : Int)).tdiv 2)).1))
    ∧ (fullUpdateDecision always current.length r = true →
        (TruncateEncodedChangeLog current (maxLen - (cl.entries.length : Int))
          ((maxLen - (cl.entries.length : Int)).tdiv 2)).1 = 0 →
        (addToChangeLogCallback maxLen always r cl current).newValue =
          current ++ encodeEntriesWithParents cl.entries)
    ∧ (fullUpdateDecision always current.length r = false →
        ((addToChangeLogCallback maxLen always r cl current).newValue =
            current ++ encodeEntriesWithParents cl.entries
        ∧ (addToChangeLogCallback maxLen always r cl current).closure.removedCount = 0))
    ∧ ((addToChangeLogCallback maxLen always r cl current).newValue =
          current ++ encodeEntriesWithParents cl.entries →
        current.length ≤ (addToChangeLogCallback maxLen always r cl current).newValue.length) := by
  refine ⟨?_, ?_, ?_, ?_⟩
  · intro hdec htr
    constructor
    · simp only [addToChangeLogCallback]
      rw [if_neg hne, hdec, if_pos rfl, if_pos htr]
    · simp only [addToChangeLogCallback]
      rw [if_neg hne, hdec, if_pos rfl, if_pos htr]
  · intro hdec htr
    simp only [addToChangeLogCallback]
    rw [if_neg hne, hdec, if_pos rfl, if_neg (by rw [htr]; exact lt_irrefl 0)]
  · intro hdec
    constructor
    · simp only [addToChangeLogCallback]
      rw [if_neg hne, hdec, if_neg (by simp)]
    · simp only [addToChangeLogCallback]
      rw [if_neg hne, hdec, if_neg (by simp)]
  · intro happ
    rw [happ, List.length_append]
    exact Nat.le_add_right _ _

/-- Witness for C4 at a concrete below-threshold input (decision false,
default append path). -/
theorem addToChangeLog_caseBC_spec_witness :
    ((addToChangeLogCallback 5 false 7 ⟨[mkAddChange ⟨9, [], [], 0⟩ []], false, 0, 0⟩
        [1, 2, 3]).newValue =
      [1, 2, 3] ++ encodeEntriesWithParents [mkAddChange ⟨9, [], [], 0⟩ []])
    ∧ (addToChangeLogCallback 5 false 7 ⟨[mkAddChange ⟨9, [], [], 0⟩ []], false, 0, 0⟩
        [1, 2, 3]).closure.removedCount = 0
    ∧ (3 : Nat) ≤ (addToChangeLogCallback 5 false 7
        ⟨[mkAddChange ⟨9, [], [], 0⟩ []], false, 0, 0⟩ [1, 2, 3]).newValue.length := by
  have h := addToChangeLog_caseBC_spec 5 false 7
    ⟨[mkAddChange ⟨9, [], [], 0⟩ []], false, 0, 0⟩ [1, 2, 3] (by decide)
  have h3 := h.2.2.1 (by decide)
  exact ⟨h3.1, h3.2, h.2.2.2 h3.1⟩

/-- Two entries that agree on everything except possibly the `Removed`
bit of the flags (the only bit `addToChangeLogs` mutates). -/
def flagCompatible (a b : LogEntry) : Prop :=
  a.sequence = b.sequence ∧ a.docID = b.docID ∧ a.revID = b.revID ∧
    a.flags / 2 = b.flags / 2

theorem flagCompatible_refl (a : LogEntry) : flagCompatible a a :=
  ⟨rfl, rfl, rfl, rfl⟩

theorem flagCompatible_setRemoved (a b : LogEntry) (h : flagCompatible a b) :
    flagCompatible { a with flags := setRemoved a.flags } b := by
  obtain ⟨h1, h2, h3, h4⟩ := h
  refine ⟨h1, h2, h3, ?_⟩
  show setRemoved a.flags / 2 = b.flags / 2
  unfold setRemoved
  omega

theorem flagCompatible_clearRemoved (a b : LogEntry) (h : flagCompatible a b) :
    flagCompatible { a with flags := clearRemoved a.flags } b := by
  obtain ⟨h1, h2, h3, h4⟩ := h
  refine ⟨h1, h2, h3, ?_⟩
  show clearRemoved a.flags / 2 = b.flags / 2
  unfold clearRemoved
  omega

theorem set_eq_of_flagCompatible (a b : LogEntry) (h : flagCompatible a b) :
    { a with flags := setRemoved a.flags } =
      { b with flags := setRemoved b.flags } := by
  obtain ⟨h1, h2, h3, h4⟩ := h
  cases a
  cases b
  simp_all [setRemoved]

theorem clear_eq_of_flagCompatible (a b : LogEntry) (h : flagCompatible a b) :
    { a with flags := clearRemoved a.flags } =
      { b with flags := clearRemoved b.flags } := by
  obtain ⟨h1, h2, h3, h4⟩ := h
  cases a
  cases b
  simp_all [clearRemoved]

theorem addToChangeLogsLoop_final_compat
    (m : List (String × Option Removal)) (entry : LogEntry) :
    flagCompatible (addToChangeLogsLoop m entry).2 entry := by
  induction m generalizing entry with
  | nil => exact flagCompatible_refl entry
  | cons hd rest ih =>
    obtain ⟨ch', rm'⟩ := hd
    cases rm' with
    | some r' =>
      simp only [addToChangeLogsLoop]
      split
      · exact ih entry
      · obtain ⟨h1, h2, h3, h4⟩ :=
          ih { entry with flags := setRemoved entry.flags }
        refine ⟨h1.trans rfl, h2.trans rfl, h3.trans rfl, ?_⟩
        rw [h4]
        show setRemoved entry.flags / 2 = entry.flags / 2
        unfold setRemoved
        omega
    | none =>
      simp only [addToChangeLogsLoop]
      obtain ⟨h1, h2, h3, h4⟩ :=
        ih { entry with flags := clearRemoved entry.flags }
      refine ⟨h1.trans rfl, h2.trans rfl, h3.trans rfl, ?_⟩
      rw [h4]
      show clearRemoved entry.flags / 2 = entry.flags / 2
      unfold clearRemoved
      omega

theorem addToChangeLogsLoop_not_mem
    (m : List (String × Option Removal)) (entry : LogEntry) (ch : String)
    (h : ch ∉ m.map Prod.fst) :
    ∀ e, (ch, e) ∉ (addToChangeLogsLoop m entry).1 := by
  induction m generalizing entry with
  | nil => intro e hc; simp [addToChangeLogsLoop] at hc
  | cons hd rest ih =>
    obtain ⟨ch', rm'⟩ := hd
    simp only [List.map_cons, List.mem_cons, not_or] at h
    intro e hc
    cases rm' with
    | some r' =>
      simp only [addToChangeLogsLoop] at hc
      split at hc
      · exact ih entry h.2 e hc
      · rcases List.mem_cons.mp hc with heq | htl
        · exact h.1 (congrArg Prod.fst heq)
        · exact ih _ h.2 e htl
    | none =>
      simp only [addToChangeLogsLoop] at hc
      rcases List.mem_cons.mp hc with heq | htl
      · exact h.1 (congrArg Prod.fst heq)
      · exact ih _ h.2 e htl

theorem addToChangeLogsLoop_mem_spec
    (m : List (String × Option Removal)) (entry entry0 : LogEntry)
    (hcompat : flagCompatible entry entry0)
    (hnd : (m.map Prod.fst).Nodup) (ch : String) :
    (∀ r, (ch, some r) ∈ m → r.seq ≠ entry0.sequence →
        ∀ e, (ch, e) ∉ (addToChangeLogsLoop m entry).1)
    ∧ (∀ r, (ch, some r) ∈ m → r.seq = entry0.sequence →
        (ch, { entry0 with flags := setRemoved entry0.flags }) ∈
          (addToChangeLogsLoop m entry).1)
    ∧ ((ch, (none : Option Removal)) ∈ m →
        (ch, { entry0 with flags := clearRemoved entry0.flags }) ∈
          (addToChangeLogsLoop m entry).1) := by
  induction m generalizing entry with
  | nil =>
    refine ⟨?_, ?_, ?_⟩
    · intro r hmem; simp at hmem
    · intro r hmem; simp at hmem
    · intro hmem; simp at hmem
  | cons hd rest ih =>
    obtain ⟨ch', rm'⟩ := hd
    simp only [List.map_cons, List.nodup_cons] at hnd
    obtain ⟨hch', hndr⟩ := hnd
    cases rm' with
    | some r' =>
      by_cases hseq : r'.seq ≠ entry.sequence
      · -- stale removal for the head channel: it is skipped
        refine ⟨?_, ?_, ?_⟩
        · intro r hmem hne e hc
          simp only [addToChangeLogsLoop, if_pos hseq] at hc
          rcases List.mem_cons.mp hmem with heq | htl
          · have hce : ch = ch' := congrArg Prod.fst heq
            refine addToChangeLogsLoop_not_mem rest entry ch ?_ e hc
            rw [hce]
            exact hch'
          · exact (ih entry hcompat hndr).1 r htl hne e hc
        · intro r hmem heq
          simp only [addToChangeLogsLoop, if_pos hseq]
          rcases List.mem_cons.mp hmem with hhd | htl
          · exfalso
            have : r = r' := by
              have := congrArg Prod.snd hhd
              simpa using this
            rw [this] at heq
            exact hseq (heq.trans hcompat.1.symm)
          · exact (ih entry hcompat hndr).2.1 r htl heq
        · intro hmem
          simp only [addToChangeLogsLoop, if_pos hseq]
          rcases List.mem_cons.mp hmem with hhd | htl
          · exact absurd (congrArg Prod.snd hhd) (by simp)
          · exact (ih entry hcompat hndr).2.2 htl
      · -- matching removal for the head channel: Removed is set
        push_neg at hseq
        have hcompat' : flagCompatible
            { entry with flags := setRemoved entry.flags } entry0 :=
          flagCompatible_setRemoved entry entry0 hcompat
        refine ⟨?_, ?_, ?_⟩
        · intro r hmem hne e hc
          simp only [addToChangeLogsLoop, if_neg (not_not_intro hseq)] at hc
          rcases List.mem_cons.mp hmem with hhd | htl
          · have hce : ch = ch' := congrArg Prod.fst hhd
            have : r = r' := by
              have := congrArg Prod.snd hhd
              simpa using this
            rw [this, hseq, hcompat.1] at hne
            exact hne rfl
          · rcases List.mem_cons.mp hc with hche | hctl
            · have : ch = ch' := congrArg Prod.fst hche
              rw [this] at htl
              exact hch' (List.mem_map_of_mem Prod.fst htl)
            · exact (ih _ hcompat' hndr).1 r htl hne e hctl
        · intro r hmem heq
          simp only [addToChangeLogsLoop, if_neg (not_not_intro hseq)]
          rcases List.mem_cons.mp hmem with hhd | htl
          · have hce : ch = ch' := congrArg Prod.fst hhd
            rw [hce, ← set_eq_of_flagCompatible entry entry0 hcompat]
            exact List.mem_cons_self _ _
          · exact List.mem_cons_of_mem _ ((ih _ hcompat' hndr).2.1 r htl heq)
        · intro hmem
          simp only [addToChangeLogsLoop, if_neg (not_not_intro hseq)]
          rcases List.mem_cons.mp hmem with hhd | htl
          · exact absurd (congrArg Prod.snd hhd) (by simp)
          · exact List.mem_cons_of_mem _ ((ih _ hcompat' hndr).2.2 htl)
    | none =>
      have hcompat' : flagCompatible
          { entry with flags := clearRemoved entry.flags } entry0 :=
        flagCompatible_clearRemoved entry entry0 hcompat
      refine ⟨?_, ?_, ?_⟩
      · intro r hmem hne e hc
        simp only [addToChangeLogsLoop] at hc
        rcases List.mem_cons.mp hmem with hhd | htl
        · exact absurd (congrArg Prod.snd hhd) (by simp)
        · rcases List.mem_cons.mp hc with hche | hctl
          · have : ch = ch' := congrArg Prod.fst hche
            rw [this] at htl
            exact hch' (List.mem_map_of_mem Prod.fst htl)
          · exact (ih _ hcompat' hndr).1 r htl hne e hctl
      · intro r hmem heq
        simp only [addToChangeLogsLoop]
        rcases List.mem_cons.mp hmem with hhd | htl
        · exact absurd (congrArg Prod.snd hhd) (by simp)
        · exact List.mem_cons_of_mem _ ((ih _ hcompat' hndr).2.1 r htl heq)
      · intro hmem
        simp only [addToChangeLogsLoop]
        rcases List.mem_cons.mp hmem with hhd | htl
        · have hce : ch = ch' := congrArg Prod.fst hhd
          rw [hce, ← clear_eq_of_flagCompatible entry entry0 hcompat]
          exact List.mem_cons_self _ _
        · exact List.mem_cons_of_mem _ ((ih _ hcompat' hndr).2.2 htl)

/-- C5: per-channel behaviour of `addToChangeLogs` — a channel whose
membership carries a removal with a sequence different from the entry's is
skipped entirely; a matching removal yields a copy with the `Removed` flag
set; an absent removal yields a copy with the flag cleared (each copy a
function of the original entry and that channel's own removal only); and
with the universal channel enabled a `Removed`-cleared copy additionally
goes to `"*"`. -/
theorem addToChangeLogs_spec (channelMap : List (String × Option Removal))
    (entry : LogEntry) (enableStar : Bool) (ch : String) (r : Removal)
    (hnd : (channelMap.map Prod.fst).Nodup) (hstar : ch ≠ "*") :
    ((ch, some r) ∈ channelMap → r.seq ≠ entry.sequence →
        ∀ e, (ch, e) ∉ addToChangeLogs channelMap entry enableStar)
    ∧ ((ch, some r) ∈ channelMap → r.seq = entry.sequence →
        (ch, { entry with flags := setRemoved entry.flags }) ∈
          addToChangeLogs channelMap entry enableStar)
    ∧ ((ch, (none : Option Removal)) ∈ channelMap →
        (ch, { entry with flags := clearRemoved entry.flags }) ∈
          addToChangeLogs channelMap entry enableStar)
    ∧ (enableStar = true →
        ("*", { entry with flags := clearRemoved entry.flags }) ∈
          addToChangeLogs channelMap entry enableStar) := by
  have hloop := addToChangeLogsLoop_mem_spec channelMap entry entry
    (flagCompatible_refl entry) hnd ch
  refine ⟨?_, ?_, ?_, ?_⟩
  · intro hmem hne e hc
    simp only [addToChangeLogs] at hc
    split at hc
    · rcases List.mem_append.mp hc with hin | hin
      · exact hloop.1 r hmem hne e hin
      · have : ch = "*" := congrArg Prod.fst (List.mem_singleton.mp hin)
        exact hstar this
    · exact hloop.1 r hmem hne e hc
  · intro hmem heq
    simp only [addToChangeLogs]
    split
    · exact List.mem_append_left _ (hloop.2.1 r hmem heq)
    · exact hloop.2.1 r hmem heq
  · intro hmem
    simp only [addToChangeLogs]
    split
    · exact List.mem_append_left _ (hloop.2.2 hmem)
    · exact hloop.2.2 hmem
  · intro hs
    subst hs
    simp only [addToChangeLogs]
    rw [if_true]
    apply List.mem_append_right
    have := clear_eq_of_flagCompatible
      (addToChangeLogsLoop channelMap entry).2 entry
      (addToChangeLogsLoop_final_compat channelMap entry)
    rw [this]
    exact List.mem_singleton.mpr rfl

/-- Channel map used by the C5 witness: a matching removal, a plain
membership, and a stale removal. -/
def demoMap : List (String × Option Removal) :=
  [("a", some ⟨5⟩), ("b", none), ("c", some ⟨7⟩)]

/-- Entry used by the C5 witness (sequence 5, flags with other bits set). -/
def demoEntry : LogEntry := ⟨5, [1], [2], 6⟩

/-- Witness for C5: channel "c" (stale removal) receives nothing, "a"
(matching removal) a `Removed`-set copy, "b" a cleared copy, and `"*"` a
cleared copy. -/
theorem addToChangeLogs_spec_witness :
    (("c", demoEntry) ∉ addToChangeLogs demoMap demoEntry true)
    ∧ ("a", { demoEntry with flags := setRemoved demoEntry.flags }) ∈
        addToChangeLogs demoMap demoEntry true
    ∧ ("b", { demoEntry with flags := clearRemoved demoEntry.flags }) ∈
        addToChangeLogs demoMap demoEntry true
    ∧ ("*", { demoEntry with flags := clearRemoved demoEntry.flags }) ∈
        addToChangeLogs demoMap demoEntry true := by
  have hc := addToChangeLogs_spec demoMap demoEntry true "c" ⟨7⟩
    (by decide) (by decide)
  have ha := addToChangeLogs_spec demoMap demoEntry true "a" ⟨5⟩
    (by decide) (by decide)
  have hb := addToChangeLogs_spec demoMap demoEntry true "b" ⟨5⟩
    (by decide) (by decide)
  refine ⟨hc.1 (by decide) (by decide) demoEntry, ?_, ?_, ?_⟩
  · exact ha.2.1 (by decide) (by decide)
  · exact hb.2.2.1 (by decide)
  · exact ha.2.2.2 rfl

theorem readChange_some_spec (queue : List ChangeEntry) :
    ∀ e, (readChange queue).1 = some e →
      e.replacementLog = none ∧ e ∈ queue := by
  induction queue with
  | nil => intro e he; simp [readChange] at he
  | cons hd tl ih =>
    intro e he
    cases hrl : hd.replacementLog with
    | some log =>
      simp only [readChange, hrl] at he
      obtain ⟨h1, h2⟩ := ih e he
      exact ⟨h1, List.mem_cons_of_mem _ h2⟩
    | none =>
      simp only [readChange, hrl] at he
      rw [← Option.some.inj he]
      exact ⟨hrl, List.mem_cons_self _ _⟩

theorem readChange_rest_sub (queue : List ChangeEntry) :
    ∀ x ∈ (readChange queue).2.2, x ∈ queue := by
  induction queue with
  | nil => intro x hx; simp [readChange] at hx
  | cons hd tl ih =>
    intro x hx
    cases hrl : hd.replacementLog with
    | some log =>
      simp only [readChange, hrl] at hx
      exact List.mem_cons_of_mem _ (ih x hx)
    | none =>
      simp only [readChange, hrl] at hx
      exact List.mem_cons_of_mem _ hx

theorem readChange_seeds_spec (queue : List ChangeEntry) :
    ∀ x ∈ queue, ∀ log, x.replacementLog = some log →
      log ∈ (readChange queue).2.1 ∨ x ∈ (readChange queue).2.2 := by
  induction queue with
  | nil => intro x hx; simp at hx
  | cons hd tl ih =>
    intro x hx log hlog
    cases hrl : hd.replacementLog with
    | some log' =>
      simp only [readChange, hrl]
      rcases List.mem_cons.mp hx with rfl | htl
      · left
        rw [hrl] at hlog
        rw [Option.some.inj hlog] at hrl ⊢
        exact List.mem_cons_self _ _
      · rcases ih x htl log hlog with hin | hin
        · exact Or.inl (List.mem_cons_of_mem _ hin)
        · exact Or.inr hin
    | none =>
      simp only [readChange, hrl]
      rcases List.mem_cons.mp hx with rfl | htl
      · rw [hrl] at hlog
        exact absurd hlog (by simp)
      · exact Or.inr htl

theorem readChangesLoop_batch_spec (q : List ChangeEntry)
    (acc : List ChangeEntry) (s : List ChangeLog) :
    ∃ t, (readChangesLoop q acc s).1 = acc ++ t ∧
      ∀ x ∈ t, x ∈ q ∧ x.replacementLog = none := by
  induction q generalizing acc s with
  | nil => exact ⟨[], by simp [readChangesLoop], by simp⟩
  | cons e rest ih =>
    by_cases hlen : acc.length < kChannelLogWriterQueueLength
    · cases hrl : e.replacementLog with
      | some log =>
        simp only [readChangesLoop, if_pos hlen, hrl]
        obtain ⟨t, h1, h2⟩ := ih acc (s ++ [log])
        exact ⟨t, h1, fun x hx =>
          ⟨List.mem_cons_of_mem _ (h2 x hx).1, (h2 x hx).2⟩⟩
      | none =>
        simp only [readChangesLoop, if_pos hlen, hrl]
        obtain ⟨t, h1, h2⟩ := ih (acc ++ [e]) s
        refine ⟨e :: t, by rw [h1]; simp, ?_⟩
        intro x hx
        rcases List.mem_cons.mp hx with rfl | hxt
        · exact ⟨List.mem_cons_self _ _, hrl⟩
        · exact ⟨List.mem_cons_of_mem _ (h2 x hxt).1, (h2 x hxt).2⟩
    · simp only [readChangesLoop, if_neg hlen]
      exact ⟨[], by simp, by simp⟩

theorem readChangesLoop_len_spec (q : List ChangeEntry)
    (acc : List ChangeEntry) (s : List ChangeLog)
    (h : acc.length ≤ kChannelLogWriterQueueLength) :
    (readChangesLoop q acc s).1.length ≤ kChannelLogWriterQueueLength := by
  induction q generalizing acc s with
  | nil => simpa [readChangesLoop] using h
  | cons e rest ih =>
    by_cases hlen : acc.length < kChannelLogWriterQueueLength
    · cases hrl : e.replacementLog with
      | some log =>
        simp only [readChangesLoop, if_pos hlen, hrl]
        exact ih acc (s ++ [log]) h
      | none =>
        simp only [readChangesLoop, if_pos hlen, hrl]
        exact ih (acc ++ [e]) s (by simpa using hlen)
    · simp only [readChangesLoop, if_neg hlen]
      exact h

theorem readChangesLoop_seeds_spec (q : List ChangeEntry)
    (acc : List ChangeEntry) (s : List ChangeLog) :
    (∀ l ∈ s, l ∈ (readChangesLoop q acc s).2.1)
    ∧ (∀ x ∈ q, ∀ log, x.replacementLog = some log →
        log ∈ (readChangesLoop q acc s).2.1 ∨
          x ∈ (readChangesLoop q acc s).2.2) := by
  induction q generalizing acc s with
  | nil =>
    refine ⟨?_, ?_⟩
    · intro l hl; simpa [readChangesLoop] using hl
    · intro x hx; simp at hx
  | cons e rest ih =>
    by_cases hlen : acc.length < kChannelLogWriterQueueLength
    · cases hrl : e.replacementLog with
      | some log' =>
        simp only [readChangesLoop, if_pos hlen, hrl]
        refine ⟨?_, ?_⟩
        · intro l hl
          exact (ih acc (s ++ [log'])).1 l (List.mem_append_left _ hl)
        · intro x hx log hlog
          rcases List.mem_cons.mp hx with rfl | htl
          · left
            rw [hrl] at hlog
            rw [← Option.some.inj hlog]
            exact (ih acc (s ++ [log'])).1 log'
              (List.mem_append_right _ (List.mem_singleton.mpr rfl))
          · exact (ih acc (s ++ [log'])).2 x htl log hlog
      | none =>
        simp only [readChangesLoop, if_pos hlen, hrl]
        refine ⟨(ih (acc ++ [e]) s).1, ?_⟩
        intro x hx log hlog
        rcases List.mem_cons.mp hx with rfl | htl
        · rw [hrl] at hlog
          exact absurd hlog (by simp)
        · exact (ih (acc ++ [e]) s).2 x htl log hlog
    · simp only [readChangesLoop, if_neg hlen]
      exact ⟨fun l hl => hl, fun x hx log hlog => Or.inr hx⟩

/-- A queue item is either an append enqueued by `addChange` or a seed
enqueued by `addChannelLog` (the only two producers). -/
def QueueWF (queue : List ChangeEntry) : Prop :=
  ∀ e ∈ queue, (∃ l p, e = mkAddChange l p) ∨ (∃ log, e = mkAddChannelLog log)

theorem QueueWF.isSome_of_no_replacement (queue : List ChangeEntry)
    (hwf : QueueWF queue) (x : ChangeEntry) (hx : x ∈ queue)
    (hrepl : x.replacementLog = none) : x.logEntry.isSome := by
  rcases hwf x hx with ⟨l, p, rfl⟩ | ⟨log, rfl⟩
  · rfl
  · exact absurd hrepl (by simp [mkAddChannelLog])

/-- C9: over one drain cycle, every seed-type pending write is handled
inline (its replacement log goes to the seed list feeding the
add-if-absent store write, or it remains unread) and never enters the
append batch; every batch entry has a populated `logEntry`, so the sort
comparator's dereference cannot fail; and the batch is non-empty with at
most the mailbox capacity (1000) of entries. -/
theorem readChanges_spec (queue : List ChangeEntry)
    (batch : List ChangeEntry) (seeds : List ChangeLog)
    (rest : List ChangeEntry)
    (hwf : QueueWF queue)
    (h : readChanges queue = (some batch, seeds, rest)) :
    batch ≠ []
    ∧ batch.length ≤ kChannelLogWriterQueueLength
    ∧ (∀ e ∈ batch, e.replacementLog = none ∧ e.logEntry.isSome)
    ∧ (∀ x ∈ queue, ∀ log, x.replacementLog = some log →
        log ∈ seeds ∨ x ∈ rest) := by
  rcases hrc : readChange queue with ⟨o, s0, r0⟩
  cases o with
  | none =>
    rw [readChanges, hrc] at h
    exact absurd (congrArg Prod.fst h) (by simp)
  | some e =>
    rw [readChanges, hrc] at h
    simp only [Prod.mk.injEq, Option.some.injEq] at h
    obtain ⟨hb, hs, hr⟩ := h
    have hone : e.replacementLog = none ∧ e ∈ queue := by
      have := readChange_some_spec queue e
      rw [hrc] at this
      exact this rfl
    obtain ⟨t, ht1, ht2⟩ := readChangesLoop_batch_spec r0 [e] []
    refine ⟨?_, ?_, ?_, ?_⟩
    · rw [← hb, ht1]
      simp
    · rw [← hb]
      exact readChangesLoop_len_spec r0 [e] [] (by
        simp [kChannelLogWriterQueueLength])
    · intro x hx
      rw [← hb, ht1] at hx
      rcases List.mem_append.mp hx with hx1 | hx2
      · rw [List.mem_singleton.mp hx1]
        exact ⟨hone.1, QueueWF.isSome_of_no_replacement queue hwf e
          hone.2 hone.1⟩
      · have hq : x ∈ queue := by
          have := readChange_rest_sub queue x
          rw [hrc] at this
          exact this (ht2 x hx2).1
        exact ⟨(ht2 x hx2).2, QueueWF.isSome_of_no_replacement queue hwf x
          hq (ht2 x hx2).2⟩
    · intro x hx log hlog
      have hsplit := readChange_seeds_spec queue x hx log hlog
      rw [hrc] at hsplit
      rcases hsplit with hin | hin
      · left
        rw [← hs]
        exact List.mem_append_left _ hin
      · have := (readChangesLoop_seeds_spec r0 [e] []).2 x hin log hlog
        rcases this with hin2 | hin2
        · left
          rw [← hs]
          exact List.mem_append_right _ hin2
        · right
          rw [← hr]
          exact hin2

/-- Queue used by the C9 witness: two appends around one seed. -/
def demoQueue : List ChangeEntry :=
  [mkAddChange ⟨3, [], [], 0⟩ [], mkAddChannelLog ⟨[⟨1, [], [], 0⟩]⟩,
   mkAddChange ⟨1, [], [], 0⟩ []]

/-- Witness for C9: the seed's log is handled inline, and the batch is the
two append entries only. -/
theorem readChanges_spec_witness :
    (readChanges demoQueue).1 =
      some [mkAddChange ⟨3, [], [], 0⟩ [], mkAddChange ⟨1, [], [], 0⟩ []]
    ∧ [mkAddChange ⟨3, [], [], 0⟩ [], mkAddChange ⟨1, [], [], 0⟩ []] ≠ []
    ∧ (mkAddChange ⟨3, [], [], 0⟩ []).logEntry.isSome
    ∧ ((⟨[⟨1, [], [], 0⟩]⟩ : ChangeLog) ∈ (readChanges demoQueue).2.1 ∨
        mkAddChannelLog ⟨[⟨1, [], [], 0⟩]⟩ ∈ (readChanges demoQueue).2.2) := by
  have h := readChanges_spec demoQueue
    [mkAddChange ⟨3, [], [], 0⟩ [], mkAddChange ⟨1, [], [], 0⟩ []]
    [⟨[⟨1, [], [], 0⟩]⟩] []
    (by
      intro e he
      simp only [demoQueue, List.mem_cons, List.mem_singleton] at he
      rcases he with rfl | rfl | rfl | hf
      · exact Or.inl ⟨⟨3, [], [], 0⟩, [], rfl⟩
      · exact Or.inr ⟨⟨[⟨1, [], [], 0⟩]⟩, rfl⟩
      · exact Or.inl ⟨⟨1, [], [], 0⟩, [], rfl⟩
      · exact absurd hf (by simp))
    (by decide)
  refine ⟨by decide, h.1, ?_, ?_⟩
  · exact (h.2.2.1 (mkAddChange ⟨3, [], [], 0⟩ []) (by decide)).2
  · exact h.2.2.2 (mkAddChannelLog ⟨[⟨1, [], [], 0⟩]⟩) (by decide)
      ⟨[⟨1, [], [], 0⟩]⟩ rfl

/-- Append entries with sequences 1, 2 and 3 (distinct docIDs), used for
the C2 end-to-end instance. -/
def ceSeq1 : ChangeEntry := mkAddChange ⟨1, [1], [], 0⟩ []

/-- Second entry of the C2 instance. -/
def ceSeq2 : ChangeEntry := mkAddChange ⟨2, [2], [], 0⟩ []

/-- Third entry of the C2 instance. -/
def ceSeq3 : ChangeEntry := mkAddChange ⟨3, [3], [], 0⟩ []

/-- Two distinct entries sharing sequence 5, used to exhibit that the sort
contract does not pin down tie order. -/
def ceTieA : ChangeEntry := mkAddChange ⟨5, [1], [], 0⟩ []

/-- The other equal-sequence entry of the C2 counterexample. -/
def ceTieB : ChangeEntry := mkAddChange ⟨5, [2], [], 0⟩ []

/-- C2 counterexample: `massageChanges` sorts with Go's `sort.Sort`, whose
contract guarantees only a `Less`-sorted permutation and is documented as
not stable; for the two-element arrival order `[ceTieA, ceTieB]` with
equal sequences, the reversed output is a contract-compliant result, so
the claimed "entries with equal Sequence keep their arrival order" is not
a property of the code. -/
theorem massageChanges_unstable_counterexample :
    IsSortSortResult [ceTieA, ceTieB] [ceTieB, ceTieA]
    ∧ changeEntrySeq ceTieA = changeEntrySeq ceTieB
    ∧ [ceTieB, ceTieA] ≠ [ceTieA, ceTieB] := by
  refine ⟨⟨List.Perm.swap ceTieA ceTieB [], by decide⟩, by decide, by decide⟩

/-- C2 amended: every `sort.Sort` output is a permutation of the batch
that is non-decreasing in `Sequence`; when the sequences are pairwise
distinct the output is unique — in particular arrival order 3,1,2 is
stored as 1,2,3 (stability of ties is not guaranteed by the code, see the
counterexample). -/
theorem massageChanges_sorted_spec (out : List ChangeEntry)
    (h : IsSortSortResult [ceSeq3, ceSeq1, ceSeq2] out) :
    out = [ceSeq1, ceSeq2, ceSeq3] := by
  obtain ⟨hperm, hsort⟩ := h
  have hlen : out.length = 3 := hperm.length_eq
  rcases out with _ | ⟨a, _ | ⟨b, _ | ⟨c, _ | ⟨d, tl⟩⟩⟩⟩
  · simp at hlen
  · simp at hlen
  · simp at hlen
  · have ha : a ∈ [ceSeq3, ceSeq1, ceSeq2] := hperm.subset (by simp)
    have hb : b ∈ [ceSeq3, ceSeq1, ceSeq2] := hperm.subset (by simp)
    have hc : c ∈ [ceSeq3, ceSeq1, ceSeq2] := hperm.subset (by simp)
    simp only [List.mem_cons, List.not_mem_nil, or_false] at ha hb hc
    rcases ha with rfl | rfl | rfl <;> rcases hb with rfl | rfl | rfl <;>
      rcases hc with rfl | rfl | rfl <;>
      first
        | rfl
        | exact absurd hperm (by decide)
        | exact absurd hsort (by decide)
  · simp at hlen

/-- Witness for C2's amended claim: the ascending list is the (unique)
admissible output for arrival order 3,1,2. -/
theorem massageChanges_sorted_spec_witness :
    [ceSeq1, ceSeq2, ceSeq3] = [ceSeq1, ceSeq2, ceSeq3] :=
  massageChanges_sorted_spec [ceSeq1, ceSeq2, ceSeq3]
    ⟨by decide, by decide⟩

theorem decodeEntriesAux_nil (fuel : Nat) : decodeEntriesAux fuel [] = [] := by
  cases fuel <;> rfl

theorem decodeEntriesAux_encode_cons (e : LogEntry) (p rest : List Nat)
    (fuel : Nat) :
    decodeEntriesAux (fuel + 1) (encodeEntry e p ++ rest) =
      (e, p) :: decodeEntriesAux fuel rest := by
  have hshape : encodeEntry e p ++ rest =
      e.sequence :: e.flags :: e.docID.length ::
        (e.docID ++ (e.revID.length :: (e.revID ++ (p.length :: (p ++ rest))))) := by
    simp [encodeEntry]
  rw [hshape]
  simp only [decodeEntriesAux]
  rw [if_pos (by simp)]
  rw [List.take_left, List.drop_left]
  simp only []
  rw [if_pos (by simp)]
  rw [List.take_left, List.drop_left]
  simp only []
  rw [if_pos (by simp)]
  rw [List.take_left, List.drop_left]

theorem encodeEntry_length (e : LogEntry) (p : List Nat) :
    (encodeEntry e p).length =
      e.docID.length + e.revID.length + p.length + 5 := by
  simp [encodeEntry]
  omega

/-- First entry of the oversized stored log used to exhibit the
draw-dependence of the update callback (its encoding is 10025 bytes). -/
def bigE1 : LogEntry := ⟨1, List.replicate 10020 7, [], 0⟩

/-- Second entry of the oversized stored log. -/
def bigE2 : LogEntry := ⟨2, List.replicate 10020 7, [], 0⟩

/-- A stored log of 20050 bytes (> 20000, so the probabilistic compaction
term is live) holding two decodable entries. -/
def bigCurrent : List Nat := encodeEntry bigE1 [] ++ encodeEntry bigE2 []

/-- Closure state with a one-entry batch for the C8 counterexample. -/
def cl8 : CallbackClosure := ⟨[mkAddChange ⟨9, [3], [4], 0⟩ [5]], false, 0, 0⟩

theorem bigCurrent_len : bigCurrent.length = 20050 := by
  rw [show bigCurrent = encodeEntry bigE1 [] ++ encodeEntry bigE2 [] from rfl,
    List.length_append, encodeEntry_length, encodeEntry_length]
  rw [show bigE1.docID = List.replicate 10020 7 from rfl,
    show bigE2.docID = List.replicate 10020 7 from rfl,
    show bigE1.revID = ([] : List Nat) from rfl,
    show bigE2.revID = ([] : List Nat) from rfl, List.length_replicate]
  rfl

theorem bigCurrent_decode :
    decodeEntriesAux (bigCurrent.length + 1) bigCurrent =
      [(bigE1, []), (bigE2, [])] := by
  rw [bigCurrent_len]
  rw [show bigCurrent = encodeEntry bigE1 [] ++ encodeEntry bigE2 [] from rfl]
  rw [decodeEntriesAux_encode_cons bigE1 [] (encodeEntry bigE2 []) 20050]
  rw [show (20050 : Nat) = 20049 + 1 by norm_num]
  have h2 := decodeEntriesAux_encode_cons bigE2 [] [] 20049
  rw [List.append_nil] at h2
  rw [h2, decodeEntriesAux_nil]

theorem bigCurrent_trunc :
    TruncateEncodedChangeLog bigCurrent 1 0 =
      (1, encodeEntry bigE2 [] ++ []) := by
  simp only [TruncateEncodedChangeLog]
  rw [bigCurrent_decode]
  rfl

theorem big_r0 :
    (addToChangeLogCallback 2 false 0 cl8 bigCurrent).newValue =
      (encodeEntry bigE2 [] ++ []) ++ encodeEntriesWithParents cl8.entries := by
  simp only [addToChangeLogCallback]
  rw [bigCurrent_len]
  rw [show cl8.entries.length = 1 from rfl]
  rw [if_neg (by decide)]
  rw [show fullUpdateDecision false 20050 0 = true from by decide]
  rw [if_pos rfl]
  rw [show ((2 : Int) - ((1 : Nat) : Int)) = 1 from by decide]
  rw [show ((1 : Int).tdiv 2) = 0 from by decide]
  rw [bigCurrent_trunc]
  rw [if_pos (by decide)]

theorem big_r99 :
    (addToChangeLogCallback 2 false 99 cl8 bigCurrent).newValue =
      bigCurrent ++ encodeEntriesWithParents cl8.entries := by
  simp only [addToChangeLogCallback]
  rw [bigCurrent_len]
  rw [show cl8.entries.length = 1 from rfl]
  rw [if_neg (by decide)]
  rw [show fullUpdateDecision false 20050 99 = false from by decide]
  rw [if_neg (by simp)]

theorem enc2_len : (encodeEntry bigE2 []).length = 10025 := by
  rw [encodeEntry_length]
  rw [show bigE2.docID = List.replicate 10020 7 from rfl,
    show bigE2.revID = ([] : List Nat) from rfl, List.length_replicate]
  rfl

/-- Small append entries for the batch-mutation half of the C8
counterexample. -/
def ce8a : ChangeEntry := mkAddChange ⟨8, [], [], 0⟩ []

/-- Second small entry of the overflowing two-entry batch. -/
def ce8b : ChangeEntry := mkAddChange ⟨18, [], [], 0⟩ []

/-- C8 counterexample: the update callback is not a pure deterministic
function of `(currentValue, batch)` — with the same 20050-byte stored
value and the same one-entry batch, the draws 0 and 99 (both valid
`rand.Intn(100)` results) produce different output bytes (truncate-and-
append versus plain append); and in the overflow case the callback
reassigns the captured `entries` variable, a side effect visible outside
the invocation. -/
theorem callback_not_pure_counterexample :
    (addToChangeLogCallback 2 false 0 cl8 bigCurrent).newValue ≠
      (addToChangeLogCallback 2 false 99 cl8 bigCurrent).newValue
    ∧ (addToChangeLogCallback 1 false 0
        ⟨[ce8a, ce8b], false, 0, 0⟩ []).closure.entries ≠ [ce8a, ce8b] := by
  constructor
  · intro h
    rw [big_r0, big_r99] at h
    have hl := congrArg List.length h
    simp only [List.length_append, List.length_nil, enc2_len,
      bigCurrent_len] at hl
    omega
  · decide

/-- C8 amended: the callback is deterministic in `(currentValue, batch,
closure state, random draw)`; when the stored value is at most 20000
bytes and `AlwaysCompactChangeLog` is false the draw is irrelevant, so
repeated invocations with the same inputs produce identical outputs; and
the callback's only mutation of the captured batch is dropping a prefix
of oldest entries (the overflow reslice) — it never otherwise alters the
batch. -/
theorem callback_deterministic_below_threshold (maxLen : Int)
    (cl : CallbackClosure) (current : List Nat) (r1 r2 : Nat)
    (h : current.length ≤ 20000) :
    (addToChangeLogCallback maxLen false r1 cl current =
      addToChangeLogCallback maxLen false r2 cl current)
    ∧ (∃ k, (addToChangeLogCallback maxLen false r1 cl current).closure.entries =
        cl.entries.drop k) := by
  have hd1 := fullUpdateDecision_of_small current.length r1 h
  have hd2 := fullUpdateDecision_of_small current.length r2 h
  constructor
  · simp only [addToChangeLogCallback, hd1, hd2]
  · simp only [addToChangeLogCallback, hd1]
    split
    · split
      · exact ⟨(-(maxLen - (cl.entries.length : Int))).toNat, rfl⟩
      · exact ⟨0, by rw [List.drop_zero]⟩
    · split
      · next hfalse => exact absurd hfalse (by simp)
      · exact ⟨0, by rw [List.drop_zero]⟩

/-- Witness for C8's amended claim at a concrete small input. -/
theorem callback_deterministic_below_threshold_witness :
    (addToChangeLogCallback 3 false 0 ⟨[ce8a], false, 0, 0⟩ [1] =
      addToChangeLogCallback 3 false 99 ⟨[ce8a], false, 0, 0⟩ [1])
    ∧ (∃ k, (addToChangeLogCallback 3 false 0
        ⟨[ce8a], false, 0, 0⟩ [1]).closure.entries =
          (⟨[ce8a], false, 0, 0⟩ : CallbackClosure).entries.drop k) :=
  callback_deterministic_below_threshold 3 ⟨[ce8a], false, 0, 0⟩ [1] 0 99
    (by decide)

end ChangesWriter
